import Mathlib

/-!
Verification model for the plotters drawing core: backend lifecycle,
drawing-area tree (split/margin), ranged-axis mapping and key points, and
the composable element model.  The crate root (src/lib.rs) only declares
the modules and shows usage examples; the drawing/coord/element modules
themselves are absent from the sources, so the definitions below are
modelled from the specification (each such definition says so in its doc
comment) and the examples in src/lib.rs.
-/

namespace Plotters

/-- Modelled from the spec (style interface, §4.1/§6): an opaque style value
passed through to backend calls; the core does not interpret it. -/
structure ShapeStyle where
  color : ℕ
  strokeWidth : ℕ
  filled : Bool
deriving DecidableEq

/-- Modelled from the spec (§4.1, missing drawing backend module): the
primitive draw operations a backend accepts, in device-space integer
coordinates. -/
inductive BackendCall where
  | pixel (p : ℤ × ℤ) (st : ShapeStyle)
  | line (p q : ℤ × ℤ) (st : ShapeStyle)
  | rect (ul lr : ℤ × ℤ) (st : ShapeStyle)
  | circle (c : ℤ × ℤ) (r : ℕ) (st : ShapeStyle)
  | path (pts : List (ℤ × ℤ)) (st : ShapeStyle)
  | text (s : String) (pos : ℤ × ℤ) (st : ShapeStyle)
deriving DecidableEq

/-- Modelled from the spec (§4.1): backend lifecycle status — before open,
open, and after close. -/
inductive BStatus where
  | ready
  | opened
  | closed
deriving DecidableEq

/-- Modelled from the spec (§7): error kinds surfaced by the drawing layer.
`backendErr` wraps an opaque underlying cause. -/
inductive DrawErr where
  | notReady
  | backendErr (cause : ℕ)
deriving DecidableEq

/-- Modelled from the spec (§4.1, missing backend module): backend state.
`ops` is the buffered surface mutation, `flushed` the output produced by
close, `flushCount` counts flushes, and `faults` is an injected script of
I/O outcomes (head consumed per draw call; `some cause` makes that call
fail with a `backendErr cause`). -/
structure Backend where
  status : BStatus
  faults : List (Option ℕ)
  ops : List BackendCall
  flushed : List BackendCall
  flushCount : ℕ
deriving DecidableEq

/-- Modelled from the spec (§4.1): `open` acquires the surface. -/
def openB (b : Backend) : Except DrawErr Backend :=
  if b.status = BStatus.ready then Except.ok { b with status := BStatus.opened }
  else Except.error DrawErr.notReady

/-- Modelled from the spec (§4.1, §7): a single backend draw operation.
Fails with `notReady` unless the backend is open; otherwise consumes the
head of the fault script, failing with `backendErr` if a fault is injected,
and appending the call to the buffered output when not. -/
def drawOn (b : Backend) (c : BackendCall) : Except DrawErr Backend :=
  if b.status = BStatus.opened then
    match b.faults with
    | [] => Except.ok { b with ops := b.ops ++ [c] }
    | Option.none :: rest => Except.ok { b with ops := b.ops ++ [c], faults := rest }
    | Option.some cause :: _ => Except.error (DrawErr.backendErr cause)
  else Except.error DrawErr.notReady

/-- Modelled from the spec (§4.1, §8): `close` flushes the buffered output
once and is safe to call again — a second close is a no-op that reports
success. -/
def closeB (b : Backend) : Except DrawErr Backend :=
  match b.status with
  | BStatus.closed => Except.ok b
  | _ => Except.ok { b with
      status := BStatus.closed,
      flushed := b.flushed ++ b.ops,
      ops := [],
      flushCount := b.flushCount + 1 }

/-- Modelled from the spec (§4.4): issue a sequence of backend calls,
aborting at the first failure and surfacing that error unchanged. -/
def drawAll (b : Backend) : List BackendCall → Except DrawErr Backend
  | [] => Except.ok b
  | c :: cs =>
    match drawOn b c with
    | Except.error e => Except.error e
    | Except.ok b2 => drawAll b2 cs

/-- Modelled from the spec (§3): a pixel rectangle in device space,
`(x0,y0)` upper-left, `(x1,y1)` lower-right, invariant `x0 ≤ x1 ∧ y0 ≤ y1`. -/
structure Rect where
  x0 : ℕ
  y0 : ℕ
  x1 : ℕ
  y1 : ℕ
deriving DecidableEq

/-- Width of a pixel rectangle. -/
def Rect.width (r : Rect) : ℕ := r.x1 - r.x0

/-- Height of a pixel rectangle. -/
def Rect.height (r : Rect) : ℕ := r.y1 - r.y0

/-- Pixel area of a rectangle. -/
def Rect.area (r : Rect) : ℕ := r.width * r.height

/-- Modelled from the spec (§4.4): the full-viewport filled rectangle call
issued by `fill`. -/
def Rect.fillCall (r : Rect) (st : ShapeStyle) : BackendCall :=
  BackendCall.rect ((r.x0 : ℤ), (r.y0 : ℤ)) ((r.x1 : ℤ), (r.y1 : ℤ)) st

/-- Modelled from the spec (§3, missing drawing module): a drawing area is
a viewport rectangle, a shared backend handle (modelled as a handle id),
and a coordinate transform from logical points of type `α` to device
pixels. -/
structure DrawingArea (α : Type) where
  rect : Rect
  backendId : ℕ
  transform : α → ℤ × ℤ

/-- Modelled from the spec (§4.5): shift a pixel offset by a pixel origin. -/
def shiftPt (o p : ℤ × ℤ) : ℤ × ℤ := (o.1 + p.1, o.2 + p.2)

/-- Modelled from the spec (§4.5, missing element module): a child of a
composite element, given purely in pixel offsets relative to the
composite's resolved anchor. -/
inductive PixElem where
  | circle (off : ℤ × ℤ) (r : ℕ) (st : ShapeStyle)
  | rect (off1 off2 : ℤ × ℤ) (st : ShapeStyle)
  | path (offs : List (ℤ × ℤ)) (st : ShapeStyle)
  | text (s : String) (off : ℤ × ℤ) (st : ShapeStyle)
deriving DecidableEq

/-- Modelled from the spec (§4.5): resolve a composite child to a backend
call by adding its pixel offsets to the resolved pixel origin. -/
def PixElem.toCall (origin : ℤ × ℤ) : PixElem → BackendCall
  | PixElem.circle off r st => BackendCall.circle (shiftPt origin off) r st
  | PixElem.rect o1 o2 st => BackendCall.rect (shiftPt origin o1) (shiftPt origin o2) st
  | PixElem.path offs st => BackendCall.path (offs.map (shiftPt origin)) st
  | PixElem.text s off st => BackendCall.text s (shiftPt origin off) st

/-- Modelled from the spec (§3, §4.5, missing element module): an element
is a primitive carrying logical geometry, or a composite: an anchor
logical point plus an ordered, flattened sequence of pixel-offset
children. -/
inductive Element (α : Type) where
  | circle (center : α) (r : ℕ) (st : ShapeStyle)
  | rect (c1 c2 : α) (st : ShapeStyle)
  | path (pts : List α) (st : ShapeStyle)
  | text (s : String) (pos : α) (st : ShapeStyle)
  | composite (anchor : α) (children : List PixElem)

/-- Modelled from the spec (§4.5): the backend calls an element produces
under a coordinate transform.  A primitive has each logical point mapped;
a composite resolves its anchor through the transform exactly once and
draws every child at that pixel origin plus the child's own offsets —
children are never passed through the logical transform. -/
def drawCallsOf {α : Type} (tr : α → ℤ × ℤ) : Element α → List BackendCall
  | Element.circle c r st => [BackendCall.circle (tr c) r st]
  | Element.rect c1 c2 st => [BackendCall.rect (tr c1) (tr c2) st]
  | Element.path pts st => [BackendCall.path (pts.map tr) st]
  | Element.text s p st => [BackendCall.text s (tr p) st]
  | Element.composite anchor children => children.map (PixElem.toCall (tr anchor))

/-- Modelled from the spec (§4.4): `draw(element)` issues the element's
backend calls; the pair's second component is the drawing area's own state
after the call. -/
def DrawingArea.draw {α : Type} (a : DrawingArea α) (b : Backend) (e : Element α) :
    Except DrawErr Backend × DrawingArea α :=
  (drawAll b (drawCallsOf a.transform e), a)

/-- Modelled from the spec (§4.4): `fill(color)` draws a full-viewport
filled rectangle; the pair's second component is the drawing area's own
state after the call. -/
def DrawingArea.fill {α : Type} (a : DrawingArea α) (b : Backend) (st : ShapeStyle) :
    Except DrawErr Backend × DrawingArea α :=
  (drawOn b (a.rect.fillCall st), a)

/-- Modelled from the spec (§4.4): `close()` on a drawing area delegates to
the backend's close. -/
def DrawingArea.close {α : Type} (_a : DrawingArea α) (b : Backend) :
    Except DrawErr Backend :=
  closeB b

/-- Modelled from the spec (§4.4): the `j`-th vertical grid line when the
rectangle is split into `cols` columns. -/
def xsplit (r : Rect) (cols j : ℕ) : ℕ := r.x0 + j * r.width / cols

/-- Modelled from the spec (§4.4): the `i`-th horizontal grid line when the
rectangle is split into `rows` rows. -/
def ysplit (r : Rect) (rows i : ℕ) : ℕ := r.y0 + i * r.height / rows

/-- Modelled from the spec (§4.4): the viewport of the grid cell in row `i`,
column `j`. -/
def childRect (r : Rect) (rows cols i j : ℕ) : Rect :=
  { x0 := xsplit r cols j
    y0 := ysplit r rows i
    x1 := xsplit r cols (j + 1)
    y1 := ysplit r rows (i + 1) }

/-- Modelled from the spec (§4.4, missing drawing module; used by the
src/lib.rs examples): split a drawing area into a `rows × cols` grid of
children in row-major order, each sharing the parent's backend handle with
a fresh pixel-identity transform.  The parent is not consumed. -/
def DrawingArea.split_evenly {α : Type} (a : DrawingArea α) (rc : ℕ × ℕ) :
    List (DrawingArea (ℤ × ℤ)) :=
  (List.range (rc.1 * rc.2)).map fun t =>
    { rect := childRect a.rect rc.1 rc.2 (t / rc.2) (t % rc.2)
      backendId := a.backendId
      transform := fun p => p }

/-- Modelled from the spec (§4.4, missing drawing module; used by the
src/lib.rs examples): inset the viewport by pixel margins; when the margins
exceed the viewport the region collapses to zero size rather than erroring. -/
def DrawingArea.margin {α : Type} (a : DrawingArea α) (top bottom left right : ℕ) :
    DrawingArea (ℤ × ℤ) :=
  { rect :=
      { x0 := a.rect.x0 + left
        y0 := a.rect.y0 + top
        x1 := max (a.rect.x0 + left) (a.rect.x1 - right)
        y1 := max (a.rect.y0 + top) (a.rect.y1 - bottom) }
    backendId := a.backendId
    transform := fun p => p }

/-- Modelled from the spec (§4.4, src/lib.rs example at lines 74-81): fill
each drawing area of a list in order, stopping at the first failure. -/
def fillAll (st : ShapeStyle) (b : Backend) : List (DrawingArea (ℤ × ℤ)) →
    Except DrawErr Backend
  | [] => Except.ok b
  | a :: rest =>
    match drawOn b (a.rect.fillCall st) with
    | Except.error e => Except.error e
    | Except.ok b2 => fillAll st b2 rest

/-- Modelled from the spec (§4.2, missing coord module): the linear ranged
axis map to an integer pixel span, with the degenerate domain mapped to the
span's (integer) midpoint. -/
def axisMap (lo hi v : ℚ) (p0 p1 : ℤ) : ℤ :=
  if lo = hi then (p0 + p1) / 2
  else p0 + Int.floor ((v - lo) / (hi - lo) * ((p1 : ℚ) - (p0 : ℚ)))

/-- Modelled from the spec (§4.2, §4.3): the exact (unrounded) linear
interpolation a ranged axis performs, with the degenerate domain mapped to
the midpoint of the span. -/
def axisMapRat (lo hi v p0 p1 : ℚ) : ℚ :=
  if lo = hi then (p0 + p1) / 2
  else p0 + (v - lo) / (hi - lo) * (p1 - p0)

/-- Modelled from the spec (§8, round-trip property): the inverse of the
linear ranged mapping for an invertible axis. -/
def axisUnmapRat (lo hi p p0 p1 : ℚ) : ℚ :=
  lo + (p - p0) / (p1 - p0) * (hi - lo)

/-- Modelled from the spec (§4.3): the two logical ranges a coordinate
transform combines. -/
structure CoordSpec where
  xlo : ℚ
  xhi : ℚ
  ylo : ℚ
  yhi : ℚ

/-- Modelled from the spec (§4.3): `translate` independently maps each axis
onto the rectangle's span and offsets by the rectangle's origin. -/
def translateRat (cs : CoordSpec) (r : Rect) (pt : ℚ × ℚ) : ℚ × ℚ :=
  ((r.x0 : ℚ) + axisMapRat cs.xlo cs.xhi pt.1 0 ((r.width : ℕ) : ℚ),
   (r.y0 : ℚ) + axisMapRat cs.ylo cs.yhi pt.2 0 ((r.height : ℕ) : ℚ))

/-- Modelled from the spec (§8): undo `translateRat` — subtract the
rectangle origin and apply the inverse ranged mapping on each axis. -/
def untranslateRat (cs : CoordSpec) (r : Rect) (p : ℚ × ℚ) : ℚ × ℚ :=
  (axisUnmapRat cs.xlo cs.xhi (p.1 - (r.x0 : ℚ)) 0 ((r.width : ℕ) : ℚ),
   axisUnmapRat cs.ylo cs.yhi (p.2 - (r.y0 : ℚ)) 0 ((r.height : ℕ) : ℚ))

/-- Number of multiples of a positive step `s` lying inside `[lo, hi]`. -/
def countMult (lo hi s : ℚ) : ℕ := (Int.floor (hi / s) + 1 - Int.ceil (lo / s)).toNat

/-- Powers of ten as exact rationals, for any integer exponent. -/
def pow10 (z : ℤ) : ℚ :=
  if 0 ≤ z then ((10 : ℚ)) ^ z.toNat else 1 / ((10 : ℚ)) ^ (-z).toNat

/-- Fuel-driven base-10 logarithm on naturals: `nlog fuel m` is
`⌊log10 m⌋` whenever `m ≤ fuel`. -/
def nlog : ℕ → ℕ → ℕ
  | 0, _ => 0
  | fuel + 1, m => if m < 10 then 0 else nlog fuel (m / 10) + 1

/-- Base-10 floor logarithm of a natural number. -/
def natLog10 (m : ℕ) : ℕ := nlog m m

/-- Fuel-driven ceiling of `log10 (b / a)`: the least `k` with
`b ≤ a * 10^k`, computed by scaling `a` up. -/
def clogAux : ℕ → ℕ → ℕ → ℕ
  | 0, _, _ => 0
  | fuel + 1, a, b => if b ≤ a then 0 else clogAux fuel (a * 10) b + 1

/-- Modelled from the spec (§4.2): `⌊log10 q⌋` for a positive rational,
used to locate the starting nice step. -/
def qlog10 (q : ℚ) : ℤ :=
  if 1 ≤ q then (natLog10 (Int.floor q).toNat : ℤ)
  else -(clogAux q.den q.num.toNat q.den : ℤ)

/-- Modelled from the spec (§4.2): the ascending sequence of nice step
candidates `b, 2b, 5b, 10b, 20b, 50b, …` starting from a base step. -/
def niceSeq (b : ℚ) : ℕ → List ℚ
  | 0 => []
  | fuel + 1 => b :: 2 * b :: 5 * b :: niceSeq (10 * b) fuel

/-- A step of the shape `{1,2,5} × 10^k`. -/
def isNice (s : ℚ) : Prop :=
  ∃ k : ℤ, s = pow10 k ∨ s = 2 * pow10 k ∨ s = 5 * pow10 k

/-- Modelled from the spec (§4.2): choose the tick step — the first nice
value at or above `10^⌊log10((hi-lo)/n)⌋` whose multiples inside `[lo,hi]`
number at most `n`. -/
def pickStep (lo hi : ℚ) (n : ℕ) : ℚ :=
  let base := pow10 (qlog10 ((hi - lo) / (n : ℚ)))
  ((niceSeq base (n + 5)).find? fun s => decide (countMult lo hi s ≤ n)).getD 1

/-- Modelled from the spec (§4.2, missing coord module): `key_points` — the
multiples of the chosen nice step inside `[lo, hi]`, and the single point
`lo` for a degenerate domain. -/
def keyPoints (lo hi : ℚ) (n : ℕ) : List ℚ :=
  if lo = hi then [lo]
  else
    let s := pickStep lo hi n
    (List.range (countMult lo hi s)).map fun k : ℕ =>
      ((Int.ceil (lo / s) : ℚ) + (k : ℚ)) * s

/-! ## Helper lemmas -/

/-- After a successful `closeB` the backend's status is `closed`. -/
theorem closeB_ok_status (b b2 : Backend) (h : closeB b = Except.ok b2) :
    b2.status = BStatus.closed := by
  cases hb : b.status with
  | ready => simp [closeB, hb] at h; rw [← h]
  | opened => simp [closeB, hb] at h; rw [← h]
  | closed => simp [closeB, hb] at h; rw [← h]; exact hb

/-- Any error of `drawAll` is an error some single `drawOn` call produced. -/
theorem drawAll_error_source (cs : List BackendCall) (b : Backend) (err : DrawErr)
    (h : drawAll b cs = Except.error err) :
    ∃ b2 c, c ∈ cs ∧ drawOn b2 c = Except.error err := by
  induction cs generalizing b with
  | nil => simp [drawAll] at h
  | cons c cs ih =>
    have h' : (match drawOn b c with
        | Except.error e => Except.error e
        | Except.ok b2 => drawAll b2 cs) = Except.error err := h
    cases hd : drawOn b c with
    | error e =>
      rw [hd] at h'
      simp at h'
      exact ⟨b, c, by simp, by rw [hd, h']⟩
    | ok b2 =>
      rw [hd] at h'
      simp at h'
      obtain ⟨b3, c2, hmem, hfail⟩ := ih b2 h'
      exact ⟨b3, c2, by simp [hmem], hfail⟩

/-- Filling a list of areas on an open, fault-free backend succeeds, keeps
the backend open and fault-free, and performs no flush. -/
theorem fillAll_opened (as : List (DrawingArea (ℤ × ℤ))) (st : ShapeStyle) (b : Backend)
    (h1 : b.status = BStatus.opened) (h2 : b.faults = []) :
    ∃ b2, fillAll st b as = Except.ok b2 ∧ b2.status = BStatus.opened ∧
      b2.faults = [] ∧ b2.flushCount = b.flushCount := by
  induction as generalizing b with
  | nil => exact ⟨b, rfl, h1, h2, rfl⟩
  | cons a rest ih =>
    have hd : drawOn b (a.rect.fillCall st)
        = Except.ok { b with ops := b.ops ++ [a.rect.fillCall st] } := by
      simp [drawOn, h1, h2]
    obtain ⟨b2, h3, h4, h5, h6⟩ :=
      ih { b with ops := b.ops ++ [a.rect.fillCall st] } h1 h2
    refine ⟨b2, ?_, h4, h5, h6⟩
    have h7 : fillAll st b (a :: rest) = (match drawOn b (a.rect.fillCall st) with
        | Except.error e => Except.error e
        | Except.ok b2 => fillAll st b2 rest) := rfl
    rw [h7, hd]
    exact h3

/-- Summing a mapped range one step further adds the new term. -/
theorem sum_map_range_succ (f : ℕ → ℕ) (n : ℕ) :
    ((List.range (n + 1)).map f).sum = ((List.range n).map f).sum + f n := by
  rw [List.range_succ]
  simp

/-- Telescoping sum of successive differences of a monotone ℕ-sequence. -/
theorem sum_telescope_mono (g : ℕ → ℕ) (hg : Monotone g) (n : ℕ) :
    ((List.range n).map fun j => g (j + 1) - g j).sum = g n - g 0 := by
  induction n with
  | zero => simp
  | succ n ih =>
    rw [sum_map_range_succ, ih]
    have h1 : g 0 ≤ g n := hg (Nat.zero_le n)
    have h2 : g n ≤ g (n + 1) := hg (Nat.le_succ n)
    omega

/-- A sum over `range (m * cols)` indexed row-major equals the double sum
over rows and columns. -/
theorem sum_range_mul_blocks (g : ℕ → ℕ → ℕ) (cols : ℕ) (hc : 0 < cols) (m : ℕ) :
    ((List.range (m * cols)).map fun t => g (t / cols) (t % cols)).sum
      = ((List.range m).map fun i => ((List.range cols).map fun j => g i j).sum).sum := by
  induction m with
  | zero => simp
  | succ m ih =>
    have hsplit : (m + 1) * cols = m * cols + cols := by ring
    rw [hsplit, List.range_add, List.map_append, List.sum_append, ih, sum_map_range_succ]
    congr 1
    rw [List.map_map]
    refine congrArg List.sum (List.map_congr_left fun j hj => ?_)
    have hj' : j < cols := List.mem_range.mp hj
    have hdiv : (m * cols + j) / cols = m := by
      rw [Nat.add_comm, Nat.add_mul_div_right _ _ hc, Nat.div_eq_of_lt hj']
      omega
    have hmod : (m * cols + j) % cols = j := by
      rw [Nat.add_comm, Nat.add_mul_mod_self_right, Nat.mod_eq_of_lt hj']
    simp [hdiv, hmod]

/-- The vertical grid lines of an even split are monotone in the column
index. -/
theorem xsplit_mono (r : Rect) (cols : ℕ) : Monotone (xsplit r cols) := by
  intro i j h
  exact Nat.add_le_add_left (Nat.div_le_div_right (Nat.mul_le_mul_right _ h)) _

/-- The horizontal grid lines of an even split are monotone in the row
index. -/
theorem ysplit_mono (r : Rect) (rows : ℕ) : Monotone (ysplit r rows) := by
  intro i j h
  exact Nat.add_le_add_left (Nat.div_le_div_right (Nat.mul_le_mul_right _ h)) _

/-- The last vertical grid line is the right edge of the parent's width. -/
theorem xsplit_last (r : Rect) (cols : ℕ) (hc : 0 < cols) :
    xsplit r cols cols = r.x0 + r.width := by
  unfold xsplit
  rw [Nat.mul_div_cancel_left _ hc]

/-- The last horizontal grid line is the bottom edge of the parent's
height. -/
theorem ysplit_last (r : Rect) (rows : ℕ) (hr : 0 < rows) :
    ysplit r rows rows = r.y0 + r.height := by
  unfold ysplit
  rw [Nat.mul_div_cancel_left _ hr]

/-! ## Claim theorems -/

/-- C1: drawing a composite element resolves the anchor through the
attached transform exactly once to obtain a pixel origin; every child is
drawn at that origin plus its own pixel offset and is never passed through
the logical transform (the calls depend on the transform only through its
value at the anchor).  In particular, under the identity transform a
composite anchored at (10,10) with a circle at offset (0,0) and a
rectangle at offsets (5,5)-(8,8) issues backend calls at (10,10) and
(15,15)-(18,18). -/
theorem composite_anchor_once_offsets_additive :
    (∀ (α : Type) (tr tr2 : α → ℤ × ℤ) (anchor : α) (children : List PixElem),
      drawCallsOf tr (Element.composite anchor children)
          = children.map (PixElem.toCall (tr anchor)) ∧
      (tr2 anchor = tr anchor →
        drawCallsOf tr2 (Element.composite anchor children)
          = drawCallsOf tr (Element.composite anchor children))) ∧
    (∀ st1 st2 : ShapeStyle,
      drawCallsOf (fun p : ℤ × ℤ => p)
          (Element.composite ((10, 10) : ℤ × ℤ)
            [PixElem.circle (0, 0) 3 st1, PixElem.rect (5, 5) (8, 8) st2])
        = [BackendCall.circle (10, 10) 3 st1,
           BackendCall.rect (15, 15) (18, 18) st2]) := by
  constructor
  · intro α tr tr2 anchor children
    refine ⟨rfl, fun h => ?_⟩
    simp [drawCallsOf, h]
  · intro st1 st2
    simp [drawCallsOf, PixElem.toCall, shiftPt]

/-- C1 witness: a transform agreeing with the identity at the anchor only
produces the same composite calls. -/
theorem composite_anchor_once_offsets_additive_witness :
    drawCallsOf (fun p : ℤ × ℤ => (p.2, p.1))
        (Element.composite ((0, 0) : ℤ × ℤ)
          [PixElem.circle (1, 2) 5 ⟨0, 0, false⟩])
      = drawCallsOf (fun p : ℤ × ℤ => p)
        (Element.composite ((0, 0) : ℤ × ℤ)
          [PixElem.circle (1, 2) 5 ⟨0, 0, false⟩]) :=
  (composite_anchor_once_offsets_additive.1 (ℤ × ℤ) (fun p => p)
    (fun p => (p.2, p.1)) (0, 0) [PixElem.circle (1, 2) 5 ⟨0, 0, false⟩]).2 rfl

/-- C2: on a non-degenerate domain the ranged-axis map hits the pixel-span
endpoints exactly; on a degenerate domain (`lo = hi`) every value maps to
the span's (integer) midpoint. -/
theorem axisMap_boundary_exact_degenerate_midpoint (lo hi : ℚ) (p0 p1 : ℤ) :
    (lo ≠ hi → axisMap lo hi lo p0 p1 = p0 ∧ axisMap lo hi hi p0 p1 = p1) ∧
    (lo = hi → ∀ v : ℚ, axisMap lo hi v p0 p1 = (p0 + p1) / 2) := by
  constructor
  · intro h
    constructor
    · simp [axisMap, h, sub_self, zero_div, zero_mul, Int.floor_zero]
    · have hne : hi - lo ≠ 0 := sub_ne_zero.mpr (Ne.symm h)
      simp only [axisMap, h, if_false, div_self hne, one_mul]
      rw [show ((p1 : ℚ) - (p0 : ℚ)) = ((p1 - p0 : ℤ) : ℚ) by push_cast; ring,
        Int.floor_intCast]
      ring
  · intro h v
    simp [axisMap, h]

/-- C2 witness: the axis 0..10 over the span 0..100 maps the endpoints to
0 and 100, and the degenerate axis 2..2 maps 7 to the midpoint of 4..10. -/
theorem axisMap_boundary_exact_degenerate_midpoint_witness :
    (axisMap 0 10 0 0 100 = 0 ∧ axisMap 0 10 10 0 100 = 100) ∧
      axisMap 2 2 7 4 10 = 7 :=
  ⟨(axisMap_boundary_exact_degenerate_midpoint 0 10 0 100).1 (by norm_num),
   (axisMap_boundary_exact_degenerate_midpoint 2 2 4 10).2 rfl 7⟩

/-- C5: a backend draw operation invoked before `open` (status `ready`) or
after `close` fails with a `notReady` error. -/
theorem draw_before_open_or_after_close_fails (b : Backend) (c : BackendCall) :
    (b.status = BStatus.ready → drawOn b c = Except.error DrawErr.notReady) ∧
    (∀ b2, closeB b = Except.ok b2 → drawOn b2 c = Except.error DrawErr.notReady) := by
  constructor
  · intro h
    simp [drawOn, h]
  · intro b2 h
    have hs := closeB_ok_status b b2 h
    simp [drawOn, hs]

/-- C5 witness: drawing on a freshly created backend and on a closed
backend both fail with `notReady`. -/
theorem draw_before_open_or_after_close_fails_witness :
    drawOn ⟨BStatus.ready, [], [], [], 0⟩ (BackendCall.pixel (0, 0) ⟨0, 0, false⟩)
        = Except.error DrawErr.notReady ∧
    drawOn ⟨BStatus.closed, [], [], [], 1⟩ (BackendCall.pixel (0, 0) ⟨0, 0, false⟩)
        = Except.error DrawErr.notReady :=
  ⟨(draw_before_open_or_after_close_fails ⟨BStatus.ready, [], [], [], 0⟩
      (BackendCall.pixel (0, 0) ⟨0, 0, false⟩)).1 rfl,
   (draw_before_open_or_after_close_fails ⟨BStatus.opened, [], [], [], 0⟩
      (BackendCall.pixel (0, 0) ⟨0, 0, false⟩)).2 ⟨BStatus.closed, [], [], [], 1⟩ rfl⟩

/-- C7: `close` always succeeds, and a second `close` on the resulting
backend succeeds and leaves the state (in particular the flushed output)
unchanged — no duplicate output. -/
theorem close_twice_no_error_no_duplicate (b : Backend) :
    (∃ b2, closeB b = Except.ok b2) ∧
    (∀ b2, closeB b = Except.ok b2 → closeB b2 = Except.ok b2) := by
  constructor
  · rcases b with ⟨s, f, o, fl, n⟩
    cases s
    · exact ⟨_, rfl⟩
    · exact ⟨_, rfl⟩
    · exact ⟨_, rfl⟩
  · intro b2 h
    have hs := closeB_ok_status b b2 h
    simp [closeB, hs]

/-- C7 witness: closing an open backend with one buffered op, then closing
again, returns the very same state the first close produced. -/
theorem close_twice_no_error_no_duplicate_witness :
    closeB ⟨BStatus.closed, [], [], [BackendCall.pixel (0, 0) ⟨0, 0, false⟩], 1⟩
      = Except.ok ⟨BStatus.closed, [], [], [BackendCall.pixel (0, 0) ⟨0, 0, false⟩], 1⟩ :=
  (close_twice_no_error_no_duplicate
      ⟨BStatus.opened, [], [BackendCall.pixel (0, 0) ⟨0, 0, false⟩], [], 0⟩).2
    ⟨BStatus.closed, [], [], [BackendCall.pixel (0, 0) ⟨0, 0, false⟩], 1⟩ rfl

/-- C8: a backend failure during `draw` or `fill` aborts the call and
surfaces exactly the error the backend produced, and the drawing area's
own state (viewport and transform) is returned unchanged; a failing call
aborts the rest of the sequence. -/
theorem draw_fill_failure_propagates_area_intact (α : Type) (a : DrawingArea α)
    (b : Backend) (e : Element α) (st : ShapeStyle) (err : DrawErr) :
    ((a.draw b e).1 = Except.error err →
      (∃ b2 c, c ∈ drawCallsOf a.transform e ∧ drawOn b2 c = Except.error err) ∧
      (a.draw b e).2 = a) ∧
    ((a.fill b st).1 = Except.error err →
      drawOn b (a.rect.fillCall st) = Except.error err ∧ (a.fill b st).2 = a) ∧
    (∀ (c : BackendCall) (cs : List BackendCall),
      drawOn b c = Except.error err → drawAll b (c :: cs) = Except.error err) := by
  refine ⟨fun h => ⟨drawAll_error_source _ _ _ h, rfl⟩, fun h => ⟨h, rfl⟩,
    fun c cs h => ?_⟩
  have h7 : drawAll b (c :: cs) = (match drawOn b c with
      | Except.error e => Except.error e
      | Except.ok b2 => drawAll b2 cs) := rfl
  rw [h7, h]

/-- C8 witness: filling on a closed backend fails with the backend's
`notReady` error and the drawing area is unchanged. -/
theorem draw_fill_failure_propagates_area_intact_witness :
    drawOn ⟨BStatus.closed, [], [], [], 1⟩
        ((⟨⟨0, 0, 10, 10⟩, 0, fun p => p⟩ : DrawingArea (ℤ × ℤ)).rect.fillCall ⟨0, 0, true⟩)
      = Except.error DrawErr.notReady ∧
    ((⟨⟨0, 0, 10, 10⟩, 0, fun p => p⟩ : DrawingArea (ℤ × ℤ)).fill
        ⟨BStatus.closed, [], [], [], 1⟩ ⟨0, 0, true⟩).2
      = ⟨⟨0, 0, 10, 10⟩, 0, fun p => p⟩ :=
  (draw_fill_failure_propagates_area_intact (ℤ × ℤ)
      ⟨⟨0, 0, 10, 10⟩, 0, fun p => p⟩ ⟨BStatus.closed, [], [], [], 1⟩
      (Element.circle (1, 1) 2 ⟨0, 0, true⟩) ⟨0, 0, true⟩ DrawErr.notReady).2.1 rfl

/-- C10: splitting does not consume the parent — after the children of an
even split are all filled, closing through the parent still succeeds and
flushes the backend exactly once (no flush happens during the fills). -/
theorem split_evenly_parent_close_flushes_once (α : Type) (a : DrawingArea α)
    (b : Backend) (st : ShapeStyle) (rc : ℕ × ℕ)
    (h1 : b.status = BStatus.opened) (h2 : b.faults = []) :
    ∃ b1 b2, fillAll st b (a.split_evenly rc) = Except.ok b1 ∧
      b1.flushCount = b.flushCount ∧
      a.close b1 = Except.ok b2 ∧
      b2.flushCount = b.flushCount + 1 := by
  obtain ⟨b1, h3, h4, _h5, h6⟩ := fillAll_opened (a.split_evenly rc) st b h1 h2
  have hc : closeB b1 = Except.ok
      { b1 with
        status := BStatus.closed
        flushed := b1.flushed ++ b1.ops
        ops := []
        flushCount := b1.flushCount + 1 } := by
    simp [closeB, h4]
  exact ⟨b1, _, h3, h6, hc, by simp [h6]⟩

/-- C10 witness: a 3×3 split of a 300×200 root on a fresh open backend —
all nine children fill, and closing the parent flushes exactly once. -/
theorem split_evenly_parent_close_flushes_once_witness :
    ∃ b1 b2, fillAll ⟨0, 0, true⟩ ⟨BStatus.opened, [], [], [], 0⟩
        ((⟨⟨0, 0, 300, 200⟩, 0, fun p => p⟩ : DrawingArea (ℤ × ℤ)).split_evenly (3, 3))
        = Except.ok b1 ∧
      b1.flushCount = 0 ∧
      (⟨⟨0, 0, 300, 200⟩, 0, fun p => p⟩ : DrawingArea (ℤ × ℤ)).close b1 = Except.ok b2 ∧
      b2.flushCount = 0 + 1 :=
  split_evenly_parent_close_flushes_once (ℤ × ℤ) ⟨⟨0, 0, 300, 200⟩, 0, fun p => p⟩
    ⟨BStatus.opened, [], [], [], 0⟩ ⟨0, 0, true⟩ (3, 3) rfl rfl

/-- C4: `split_evenly (rows, cols)` returns exactly `rows × cols` children
in row-major order, each sharing the parent's backend handle; the child
viewports lie inside the parent and their areas sum to the parent's area
(exact tiling, no overlap, no gap). -/
theorem split_evenly_tiles (α : Type) (a : DrawingArea α) (rows cols : ℕ)
    (hr : 0 < rows) (hc : 0 < cols)
    (hx : a.rect.x0 ≤ a.rect.x1) (hy : a.rect.y0 ≤ a.rect.y1) :
    (a.split_evenly (rows, cols)).length = rows * cols ∧
    (∀ i j, i < rows → j < cols →
      (a.split_evenly (rows, cols))[i * cols + j]? =
        some { rect := childRect a.rect rows cols i j
               backendId := a.backendId
               transform := fun p => p }) ∧
    (∀ d ∈ a.split_evenly (rows, cols),
      d.backendId = a.backendId ∧
      a.rect.x0 ≤ d.rect.x0 ∧ d.rect.x0 ≤ d.rect.x1 ∧ d.rect.x1 ≤ a.rect.x1 ∧
      a.rect.y0 ≤ d.rect.y0 ∧ d.rect.y0 ≤ d.rect.y1 ∧ d.rect.y1 ≤ a.rect.y1) ∧
    ((a.split_evenly (rows, cols)).map fun d => d.rect.area).sum = a.rect.area := by
  refine ⟨by simp [DrawingArea.split_evenly], ?_, ?_, ?_⟩
  · intro i j hi hj
    have hlt : i * cols + j < rows * cols := by
      calc i * cols + j < i * cols + cols := by omega
      _ = (i + 1) * cols := by ring
      _ ≤ rows * cols := Nat.mul_le_mul_right _ (by omega)
    have hdiv : (i * cols + j) / cols = i := by
      rw [Nat.add_comm, Nat.add_mul_div_right _ _ hc, Nat.div_eq_of_lt hj]
      omega
    have hmod : (i * cols + j) % cols = j := by
      rw [Nat.add_comm, Nat.add_mul_mod_self_right, Nat.mod_eq_of_lt hj]
    simp [DrawingArea.split_evenly, hlt, hdiv, hmod]
  · intro d hd
    simp only [DrawingArea.split_evenly, List.mem_map, List.mem_range] at hd
    obtain ⟨t, ht, rfl⟩ := hd
    have hmod : t % cols < cols := Nat.mod_lt _ hc
    have hdivlt : t / cols < rows :=
      Nat.div_lt_of_lt_mul (by rw [Nat.mul_comm cols rows]; exact ht)
    have hx0 : xsplit a.rect cols 0 = a.rect.x0 := by simp [xsplit]
    have hxm0 : xsplit a.rect cols 0 ≤ xsplit a.rect cols (t % cols) :=
      xsplit_mono _ _ (Nat.zero_le _)
    have hxm1 : xsplit a.rect cols (t % cols) ≤ xsplit a.rect cols (t % cols + 1) :=
      xsplit_mono _ _ (Nat.le_succ _)
    have hx1 : xsplit a.rect cols (t % cols + 1) ≤ xsplit a.rect cols cols :=
      xsplit_mono _ _ (by omega)
    have hxl := xsplit_last a.rect cols hc
    have hy0 : ysplit a.rect rows 0 = a.rect.y0 := by simp [ysplit]
    have hym0 : ysplit a.rect rows 0 ≤ ysplit a.rect rows (t / cols) :=
      ysplit_mono _ _ (Nat.zero_le _)
    have hym1 : ysplit a.rect rows (t / cols) ≤ ysplit a.rect rows (t / cols + 1) :=
      ysplit_mono _ _ (Nat.le_succ _)
    have hy1 : ysplit a.rect rows (t / cols + 1) ≤ ysplit a.rect rows rows :=
      ysplit_mono _ _ (by omega)
    have hyl := ysplit_last a.rect rows hr
    simp only [Rect.width, Rect.height] at hxl hyl
    refine ⟨rfl, ?_, ?_, ?_, ?_, ?_, ?_⟩ <;> dsimp only [childRect] <;> omega
  · unfold DrawingArea.split_evenly
    rw [List.map_map]
    have harea : ∀ t : ℕ, ((fun d : DrawingArea (ℤ × ℤ) => d.rect.area) ∘ fun t =>
        ({ rect := childRect a.rect rows cols (t / cols) (t % cols)
           backendId := a.backendId
           transform := fun p => p } : DrawingArea (ℤ × ℤ))) t
        = (childRect a.rect rows cols (t / cols) (t % cols)).area := fun t => rfl
    rw [List.map_congr_left fun t _ => harea t]
    rw [sum_range_mul_blocks (fun i j => (childRect a.rect rows cols i j).area) cols hc rows]
    have hrow : ∀ i, ((List.range cols).map fun j =>
        (childRect a.rect rows cols i j).area).sum
        = a.rect.width * (ysplit a.rect rows (i + 1) - ysplit a.rect rows i) := by
      intro i
      have hcong : ∀ j ∈ List.range cols,
          (childRect a.rect rows cols i j).area
            = (xsplit a.rect cols (j + 1) - xsplit a.rect cols j) *
              (ysplit a.rect rows (i + 1) - ysplit a.rect rows i) := by
        intro j _
        rfl
      rw [List.map_congr_left hcong, List.sum_map_mul_right,
        sum_telescope_mono (xsplit a.rect cols) (xsplit_mono a.rect cols) cols,
        xsplit_last a.rect cols hc]
      simp [xsplit]
    rw [List.map_congr_left fun i _ => hrow i, List.sum_map_mul_left,
      sum_telescope_mono (ysplit a.rect rows) (ysplit_mono a.rect rows) rows,
      ysplit_last a.rect rows hr]
    simp [ysplit, Rect.area]

/-- C4 witness: a 2×2 split of a 100×100 viewport has four children whose
areas sum to the parent's area. -/
theorem split_evenly_tiles_witness :
    ((⟨⟨0, 0, 100, 100⟩, 0, fun p => p⟩ : DrawingArea (ℤ × ℤ)).split_evenly (2, 2)).length
        = 2 * 2 ∧
    (((⟨⟨0, 0, 100, 100⟩, 0, fun p => p⟩ : DrawingArea (ℤ × ℤ)).split_evenly (2, 2)).map
        fun d => d.rect.area).sum = (⟨0, 0, 100, 100⟩ : Rect).area := by
  have h := split_evenly_tiles (ℤ × ℤ) ⟨⟨0, 0, 100, 100⟩, 0, fun p => p⟩ 2 2
    (by norm_num) (by norm_num) (by norm_num) (by norm_num)
  exact ⟨h.1, h.2.2.2⟩

/-- C6: `margin` returns one child inset by exactly the requested amounts
when they fit; margins exceeding the viewport collapse it to a zero-area
region, with no error possible (the operation is total). -/
theorem margin_insets_exact_or_zero_area (α : Type) (a : DrawingArea α)
    (t bm l r : ℕ) (hx : a.rect.x0 ≤ a.rect.x1) (hy : a.rect.y0 ≤ a.rect.y1) :
    ((a.margin t bm l r).rect.x0 = a.rect.x0 + l ∧
     (a.margin t bm l r).rect.y0 = a.rect.y0 + t ∧
     (a.margin t bm l r).backendId = a.backendId) ∧
    (l + r ≤ a.rect.width → t + bm ≤ a.rect.height →
      (a.margin t bm l r).rect.x1 = a.rect.x1 - r ∧
      (a.margin t bm l r).rect.y1 = a.rect.y1 - bm ∧
      (a.margin t bm l r).rect.width = a.rect.width - (l + r) ∧
      (a.margin t bm l r).rect.height = a.rect.height - (t + bm)) ∧
    ((a.rect.width < l + r ∨ a.rect.height < t + bm) →
      (a.margin t bm l r).rect.area = 0) := by
  refine ⟨⟨rfl, rfl, rfl⟩, ?_, ?_⟩
  · intro h1 h2
    simp only [Rect.width, Rect.height] at h1 h2
    refine ⟨?_, ?_, ?_, ?_⟩ <;>
      simp only [DrawingArea.margin, Rect.width, Rect.height] <;> omega
  · intro h
    rcases h with h | h
    · have hw : (a.margin t bm l r).rect.width = 0 := by
        simp only [Rect.width] at h
        simp only [DrawingArea.margin, Rect.width]
        omega
      simp [Rect.area, hw]
    · have hh : (a.margin t bm l r).rect.height = 0 := by
        simp only [Rect.height] at h
        simp only [DrawingArea.margin, Rect.height]
        omega
      simp [Rect.area, hh]

/-- C6 witness: a 10-pixel margin on a 300×200 viewport insets each side
exactly; a 400-pixel margin collapses it to zero area. -/
theorem margin_insets_exact_or_zero_area_witness :
    (((⟨⟨0, 0, 300, 200⟩, 0, fun p => p⟩ : DrawingArea (ℤ × ℤ)).margin 10 10 10 10).rect.width
        = (⟨0, 0, 300, 200⟩ : Rect).width - (10 + 10)) ∧
    (((⟨⟨0, 0, 300, 200⟩, 0, fun p => p⟩ : DrawingArea (ℤ × ℤ)).margin 400 400 400 400).rect.area
        = 0) := by
  have h := margin_insets_exact_or_zero_area (ℤ × ℤ)
    ⟨⟨0, 0, 300, 200⟩, 0, fun p => p⟩ 10 10 10 10 (by norm_num) (by norm_num)
  have h2 := margin_insets_exact_or_zero_area (ℤ × ℤ)
    ⟨⟨0, 0, 300, 200⟩, 0, fun p => p⟩ 400 400 400 400 (by norm_num) (by norm_num)
  exact ⟨(h.2.1 (by norm_num [Rect.width]) (by norm_num [Rect.height])).2.2.1,
    h2.2.2 (Or.inl (by norm_num [Rect.width]))⟩

/-- C9: for invertible (linear, non-degenerate) axes, translating a
logical point through the coordinate transform and applying the inverse
ranged mapping recovers the original point exactly. -/
theorem translate_untranslate_roundtrip (cs : CoordSpec) (r : Rect) (pt : ℚ × ℚ)
    (hx : cs.xlo ≠ cs.xhi) (hy : cs.ylo ≠ cs.yhi)
    (hw : r.x0 < r.x1) (hh : r.y0 < r.y1) :
    untranslateRat cs r (translateRat cs r pt) = pt := by
  obtain ⟨px, py⟩ := pt
  have hxq : cs.xhi - cs.xlo ≠ 0 := sub_ne_zero.mpr (Ne.symm hx)
  have hyq : cs.yhi - cs.ylo ≠ 0 := sub_ne_zero.mpr (Ne.symm hy)
  have hwq : ((r.width : ℕ) : ℚ) ≠ 0 := by
    have h1 : 0 < r.width := by unfold Rect.width; omega
    exact_mod_cast Nat.pos_iff_ne_zero.mp h1
  have hhq : ((r.height : ℕ) : ℚ) ≠ 0 := by
    have h1 : 0 < r.height := by unfold Rect.height; omega
    exact_mod_cast Nat.pos_iff_ne_zero.mp h1
  unfold untranslateRat translateRat axisUnmapRat axisMapRat
  simp only [if_neg hx, if_neg hy]
  refine Prod.ext ?_ ?_ <;> dsimp only <;> field_simp <;> ring

/-- C9 witness: the point (3,7) in the 0..10 × 0..10 domain over a 100×100
rectangle round-trips exactly. -/
theorem translate_untranslate_roundtrip_witness :
    untranslateRat ⟨0, 10, 0, 10⟩ ⟨0, 0, 100, 100⟩
        (translateRat ⟨0, 10, 0, 10⟩ ⟨0, 0, 100, 100⟩ (3, 7)) = (3, 7) :=
  translate_untranslate_roundtrip ⟨0, 10, 0, 10⟩ ⟨0, 0, 100, 100⟩ (3, 7)
    (by norm_num) (by norm_num) (by norm_num) (by norm_num)

/-! ## Key-point machinery lemmas -/

/-- Powers of ten are positive. -/
theorem pow10_pos (z : ℤ) : 0 < pow10 z := by
  unfold pow10
  split
  · positivity
  · positivity

/-- Stepping the exponent multiplies `pow10` by ten. -/
theorem pow10_succ (z : ℤ) : pow10 (z + 1) = 10 * pow10 z := by
  rcases le_or_lt 0 z with h | h
  · have h1 : (0 : ℤ) ≤ z + 1 := by omega
    have h2 : (z + 1).toNat = z.toNat + 1 := by omega
    simp only [pow10, if_pos h, if_pos h1, h2, pow_succ]
    ring
  · rcases eq_or_lt_of_le (by omega : z + 1 ≤ 0) with h1 | h1
    · have hz : z = -1 := by omega
      subst hz
      norm_num [pow10]
    · have h2 : ¬ (0 : ℤ) ≤ z := by omega
      have h3 : ¬ (0 : ℤ) ≤ z + 1 := by omega
      have h4 : (-z).toNat = (-(z + 1)).toNat + 1 := by omega
      simp only [pow10, if_neg h2, if_neg h3, h4, pow_succ]
      field_simp

/-- All nice-step candidates generated from a positive base are positive. -/
theorem niceSeq_pos (F : ℕ) : ∀ (b : ℚ), 0 < b → ∀ s ∈ niceSeq b F, 0 < s := by
  induction F with
  | zero => intro b _ s hs; simp [niceSeq] at hs
  | succ F ih =>
    intro b hb s hs
    simp only [niceSeq, List.mem_cons] at hs
    rcases hs with rfl | rfl | rfl | hs
    · exact hb
    · linarith
    · linarith
    · exact ih (10 * b) (by linarith) s hs

/-- Every candidate generated from a power-of-ten base has the shape
`{1,2,5} × 10^k`. -/
theorem niceSeq_nice (F : ℕ) : ∀ (e : ℤ), ∀ s ∈ niceSeq (pow10 e) F, isNice s := by
  induction F with
  | zero => intro e s hs; simp [niceSeq] at hs
  | succ F ih =>
    intro e s hs
    simp only [niceSeq, List.mem_cons] at hs
    rcases hs with rfl | rfl | rfl | hs
    · exact ⟨e, Or.inl rfl⟩
    · exact ⟨e, Or.inr (Or.inl rfl)⟩
    · exact ⟨e, Or.inr (Or.inr rfl)⟩
    · rw [← pow10_succ] at hs
      exact ih (e + 1) s hs

/-- The `j`-th nice candidate grows at least geometrically: some member of
the sequence is at least `2^j` times the base. -/
theorem niceSeq_ge (F : ℕ) : ∀ (b : ℚ), 0 < b → ∀ j, j < 3 * F →
    ∃ s ∈ niceSeq b F, (2 : ℚ) ^ j * b ≤ s := by
  induction F with
  | zero => intro b _ j hj; omega
  | succ F ih =>
    intro b hb j hj
    rcases j with _ | j
    · exact ⟨b, by simp [niceSeq], by simp⟩
    rcases j with _ | j
    · exact ⟨2 * b, by simp [niceSeq], by simp [pow_one]⟩
    rcases j with _ | j
    · refine ⟨5 * b, by simp [niceSeq], ?_⟩
      have h4 : (2 : ℚ) ^ (0 + 1 + 1) = 4 := by norm_num
      rw [h4]
      linarith
    · obtain ⟨s, hmem, hle⟩ := ih (10 * b) (by linarith) j (by omega)
      refine ⟨s, ?_, ?_⟩
      · simp only [niceSeq, List.mem_cons]
        exact Or.inr (Or.inr (Or.inr hmem))
      · have h1 : (2 : ℚ) ^ (j + 1 + 1 + 1) * b = 2 ^ j * 8 * b := by
          rw [show j + 1 + 1 + 1 = j + 3 from rfl, pow_add]
          norm_num
        have hp : (0 : ℚ) < 2 ^ j := by positivity
        have h2 : (2 : ℚ) ^ j * 8 * b ≤ 2 ^ j * (10 * b) := by nlinarith
        linarith

/-- A step larger than the whole domain admits at most one multiple inside
it. -/
theorem countMult_le_one (lo hi s : ℚ) (hs : 0 < s) (hlt : hi - lo < s) :
    countMult lo hi s ≤ 1 := by
  have f1 : (⌊hi / s⌋ : ℚ) ≤ hi / s := Int.floor_le _
  have f2 : lo / s ≤ (⌈lo / s⌉ : ℚ) := Int.le_ceil _
  have f3 : hi / s < lo / s + 1 := by
    have h1 : (hi - lo) / s < 1 := (div_lt_one hs).mpr hlt
    have h2 : (hi - lo) / s = hi / s - lo / s := sub_div hi lo s
    linarith
  have hq : (⌊hi / s⌋ : ℚ) < (⌈lo / s⌉ : ℚ) + 1 := by linarith
  have hz : ⌊hi / s⌋ < ⌈lo / s⌉ + 1 := by exact_mod_cast hq
  unfold countMult
  omega

/-- `10·n` is dominated by `2^(n+4)`. -/
theorem ten_mul_le_two_pow (n : ℕ) : 10 * n ≤ 2 ^ (n + 4) := by
  have h1 : n < 2 ^ n := Nat.lt_two_pow n
  have h2 : 2 ^ (n + 4) = 16 * 2 ^ n := by rw [pow_add]; ring
  omega

/-- If some member of a list satisfies the predicate, `find?` succeeds. -/
theorem find?_of_mem (l : List ℚ) (p : ℚ → Bool) :
    ∀ a ∈ l, p a = true → ∃ s, l.find? p = some s := by
  induction l with
  | nil => intro a ha _; simp at ha
  | cons b l ih =>
    intro a ha hpa
    cases hpb : p b with
    | true => exact ⟨b, List.find?_cons_of_pos _ hpb⟩
    | false =>
      have hal : a ∈ l := by
        rcases List.mem_cons.mp ha with rfl | hmem
        · rw [hpa] at hpb; cases hpb
        · exact hmem
      obtain ⟨s, hs⟩ := ih a hal hpa
      exact ⟨s, by rw [List.find?_cons_of_neg _ (by simp [hpb])]; exact hs⟩

/-- With enough fuel, `nlog` bounds its argument: `m < 10^(nlog fuel m + 1)`. -/
theorem nlog_lt (fuel : ℕ) : ∀ m, m ≤ fuel → m < 10 ^ (nlog fuel m + 1) := by
  induction fuel with
  | zero =>
    intro m hm
    have hm0 : m = 0 := by omega
    subst hm0
    norm_num [nlog]
  | succ fuel ih =>
    intro m hm
    by_cases h10 : m < 10
    · have h0 : nlog (fuel + 1) m = 0 := by simp [nlog, h10]
      rw [h0]
      simpa using h10
    · have hrec : nlog (fuel + 1) m = nlog fuel (m / 10) + 1 := by simp [nlog, h10]
      rw [hrec]
      have hdle : m / 10 ≤ fuel := by omega
      have ha := ih (m / 10) hdle
      rw [pow_succ]
      omega

/-- When `clogAux` returns a positive count, the previous scaling step was
still short of the bound. -/
theorem clogAux_min (fuel : ℕ) : ∀ a b, 0 < clogAux fuel a b →
    a * 10 ^ (clogAux fuel a b - 1) < b := by
  induction fuel with
  | zero => intro a b h; simp [clogAux] at h
  | succ fuel ih =>
    intro a b h
    by_cases hba : b ≤ a
    · simp [clogAux, hba] at h
    · have hrec : clogAux (fuel + 1) a b = clogAux fuel (a * 10) b + 1 := by
        simp [clogAux, hba]
      rw [hrec]
      simp only [Nat.add_sub_cancel]
      rcases Nat.eq_zero_or_pos (clogAux fuel (a * 10) b) with h0 | hpos
      · rw [h0]
        simp only [pow_zero, Nat.mul_one]
        omega
      · have hih := ih (a * 10) b hpos
        obtain ⟨k, hk⟩ : ∃ k, clogAux fuel (a * 10) b = k + 1 :=
          ⟨clogAux fuel (a * 10) b - 1, by omega⟩
        rw [hk] at hih ⊢
        simp only [Nat.add_sub_cancel] at hih
        calc a * 10 ^ (k + 1) = a * 10 * 10 ^ k := by ring
        _ < b := hih

/-- The located floor logarithm is an upper bracket: every positive
rational is below the next power of ten. -/
theorem qlog10_upper (q : ℚ) (hq : 0 < q) : q < pow10 (qlog10 q + 1) := by
  by_cases h1 : 1 ≤ q
  · have hfl : (0 : ℤ) ≤ ⌊q⌋ := Int.floor_nonneg.mpr (by linarith)
    have hql : qlog10 q = (natLog10 (⌊q⌋).toNat : ℤ) := by simp [qlog10, h1]
    rw [hql]
    have hpos : (0 : ℤ) ≤ (natLog10 (⌊q⌋).toNat : ℤ) + 1 := by positivity
    rw [pow10, if_pos hpos]
    have htn : ((natLog10 (⌊q⌋).toNat : ℤ) + 1).toNat = natLog10 (⌊q⌋).toNat + 1 := by
      omega
    rw [htn]
    have hnl : (⌊q⌋).toNat < 10 ^ (natLog10 (⌊q⌋).toNat + 1) :=
      nlog_lt (⌊q⌋).toNat (⌊q⌋).toNat (le_refl _)
    have hlt : q < (⌊q⌋ : ℚ) + 1 := Int.lt_floor_add_one q
    have h3 : ((⌊q⌋).toNat : ℚ) + 1 ≤ ((10 : ℚ)) ^ (natLog10 (⌊q⌋).toNat + 1) := by
      exact_mod_cast hnl
    have h4 : ((⌊q⌋ : ℤ) : ℚ) = ((⌊q⌋).toNat : ℚ) := by
      exact_mod_cast (Int.toNat_of_nonneg hfl).symm
    linarith [h4 ▸ h3]
  · push_neg at h1
    have hnum : 0 < q.num := Rat.num_pos.mpr hq
    have hden : 0 < q.den := q.den_pos
    have hab : q.num.toNat < q.den := by
      have h2 := Rat.lt_one_iff_num_lt_denom.mp h1
      omega
    have hql : qlog10 q = -(clogAux q.den q.num.toNat q.den : ℤ) := by
      simp [qlog10, not_le.mpr h1]
    have hkpos : 0 < clogAux q.den q.num.toNat q.den := by
      obtain ⟨f, hf⟩ : ∃ f, q.den = f + 1 := ⟨q.den - 1, by omega⟩
      rw [hf]
      have hcond : ¬ (f + 1 ≤ q.num.toNat) := by omega
      simp [clogAux, hcond]
    have hmin : q.num.toNat * 10 ^ (clogAux q.den q.num.toNat q.den - 1) < q.den :=
      clogAux_min q.den q.num.toNat q.den hkpos
    have hqab : q = (q.num.toNat : ℚ) / (q.den : ℚ) := by
      have h5 : ((q.num.toNat : ℕ) : ℚ) = ((q.num : ℤ) : ℚ) := by
        exact_mod_cast Int.toNat_of_nonneg (le_of_lt hnum)
      rw [h5]
      exact (Rat.num_div_den q).symm
    set k := clogAux q.den q.num.toNat q.den with hkd
    rw [hql]
    by_cases hk1 : k = 1
    · rw [hk1]
      norm_num [pow10]
      exact h1
    · have hk2 : 2 ≤ k := by omega
      have hneg : ¬ (0 : ℤ) ≤ (-(k : ℤ) + 1) := by omega
      rw [pow10, if_neg hneg]
      have htn : (-(-(k : ℤ) + 1)).toNat = k - 1 := by omega
      rw [htn]
      have hdq : (0 : ℚ) < (q.den : ℚ) := by exact_mod_cast hden
      rw [lt_div_iff₀ (by positivity : (0 : ℚ) < (10 : ℚ) ^ (k - 1))]
      have h6 : q * (10 : ℚ) ^ (k - 1)
          = ((q.num.toNat : ℚ) * (10 : ℚ) ^ (k - 1)) / (q.den : ℚ) := by
        conv_lhs => rw [hqab]
        ring
      rw [h6, div_lt_one hdq]
      exact_mod_cast hmin

/-- The chosen tick step is a nice value, positive, and admits at most `n`
multiples inside the domain. -/
theorem pickStep_spec (lo hi : ℚ) (n : ℕ) (h : lo < hi) (hn : 1 ≤ n) :
    isNice (pickStep lo hi n) ∧ 0 < pickStep lo hi n ∧
      countMult lo hi (pickStep lo hi n) ≤ n := by
  have hd : 0 < hi - lo := by linarith
  have hnq : (0 : ℚ) < (n : ℚ) := by exact_mod_cast hn
  have hq : 0 < (hi - lo) / (n : ℚ) := by positivity
  have hbp : 0 < pow10 (qlog10 ((hi - lo) / (n : ℚ))) := pow10_pos _
  have hup : (hi - lo) / (n : ℚ) < 10 * pow10 (qlog10 ((hi - lo) / (n : ℚ))) := by
    have h1 := qlog10_upper _ hq
    rwa [pow10_succ] at h1
  have hdelta : hi - lo < (n : ℚ) * (10 * pow10 (qlog10 ((hi - lo) / (n : ℚ)))) := by
    rw [div_lt_iff₀ hnq] at hup
    calc hi - lo < 10 * pow10 (qlog10 ((hi - lo) / (n : ℚ))) * (n : ℚ) := hup
    _ = (n : ℚ) * (10 * pow10 (qlog10 ((hi - lo) / (n : ℚ)))) := by ring
  have hnle : ((10 * n : ℕ) : ℚ) ≤ (2 : ℚ) ^ (n + 4) := by
    exact_mod_cast ten_mul_le_two_pow n
  obtain ⟨s0, hmem, hge⟩ := niceSeq_ge (n + 5) (pow10 (qlog10 ((hi - lo) / (n : ℚ))))
    hbp (n + 4) (by omega)
  have hs0pos : 0 < s0 := niceSeq_pos (n + 5) _ hbp s0 hmem
  have hs0gt : hi - lo < s0 := by
    have h3 : (n : ℚ) * 10 ≤ (2 : ℚ) ^ (n + 4) := by
      calc (n : ℚ) * 10 = ((10 * n : ℕ) : ℚ) := by push_cast; ring
      _ ≤ _ := hnle
    have h2 : (n : ℚ) * (10 * pow10 (qlog10 ((hi - lo) / (n : ℚ))))
        ≤ (2 : ℚ) ^ (n + 4) * pow10 (qlog10 ((hi - lo) / (n : ℚ))) := by
      have h5 : (n : ℚ) * (10 * pow10 (qlog10 ((hi - lo) / (n : ℚ))))
          = ((n : ℚ) * 10) * pow10 (qlog10 ((hi - lo) / (n : ℚ))) := by ring
      rw [h5]
      exact mul_le_mul_of_nonneg_right h3 (le_of_lt hbp)
    linarith
  have hcount : countMult lo hi s0 ≤ n :=
    le_trans (countMult_le_one lo hi s0 hs0pos hs0gt) hn
  have hptrue : (fun s => decide (countMult lo hi s ≤ n)) s0 = true := by
    simpa using hcount
  obtain ⟨s, hfind⟩ := find?_of_mem _ (fun s => decide (countMult lo hi s ≤ n))
    s0 hmem hptrue
  have hsmem : s ∈ niceSeq (pow10 (qlog10 ((hi - lo) / (n : ℚ)))) (n + 5) :=
    List.mem_of_find?_eq_some hfind
  have hstrue0 := List.find?_some hfind
  have hstrue : countMult lo hi s ≤ n := by simpa using hstrue0
  have hpick : pickStep lo hi n = s := by
    show ((niceSeq (pow10 (qlog10 ((hi - lo) / (n : ℚ)))) (n + 5)).find?
      (fun s => decide (countMult lo hi s ≤ n))).getD 1 = s
    rw [hfind]
    rfl
  rw [hpick]
  exact ⟨niceSeq_nice (n + 5) _ s hsmem, niceSeq_pos (n + 5) _ hbp s hsmem, hstrue⟩

/-- C3 (amended): `key_points(n)` returns at most `n` points, all inside
`[lo,hi]`, strictly increasing, with every consecutive step equal to one
nice value of the shape `{1,2,5}·10^k`; a degenerate domain yields exactly
`[lo]`.  (The original claim's guarantee of at least two points for a
non-degenerate domain does not hold — see the counterexample.) -/
theorem keyPoints_amended_spec (lo hi : ℚ) (n : ℕ) (hn : 1 ≤ n) :
    keyPoints lo lo n = [lo] ∧
    (lo < hi →
      (keyPoints lo hi n).length ≤ n ∧
      (∀ x ∈ keyPoints lo hi n, lo ≤ x ∧ x ≤ hi) ∧
      List.Sorted (fun a b => a < b) (keyPoints lo hi n) ∧
      isNice (pickStep lo hi n) ∧
      (∀ (i : ℕ) (h1 : i + 1 < (keyPoints lo hi n).length),
        (keyPoints lo hi n).get ⟨i + 1, h1⟩
          - (keyPoints lo hi n).get ⟨i, Nat.lt_of_succ_lt h1⟩ = pickStep lo hi n)) := by
  constructor
  · simp [keyPoints]
  · intro h
    have hne : lo ≠ hi := ne_of_lt h
    obtain ⟨hnice, hspos, hcount⟩ := pickStep_spec lo hi n h hn
    have hsne : pickStep lo hi n ≠ 0 := ne_of_gt hspos
    have hkp : keyPoints lo hi n
        = (List.range (countMult lo hi (pickStep lo hi n))).map
          (fun k : ℕ => ((Int.ceil (lo / pickStep lo hi n) : ℚ) + (k : ℚ))
            * pickStep lo hi n) := by
      unfold keyPoints
      rw [if_neg hne]
    refine ⟨?_, ?_, ?_, hnice, ?_⟩
    · rw [hkp]
      simpa using hcount
    · intro x hx
      rw [hkp] at hx
      simp only [List.mem_map, List.mem_range] at hx
      obtain ⟨k, hk, rfl⟩ := hx
      have hkz : Int.ceil (lo / pickStep lo hi n) + (k : ℤ)
          ≤ Int.floor (hi / pickStep lo hi n) := by
        unfold countMult at hk
        omega
      constructor
      · have hle1 : lo / pickStep lo hi n
            ≤ (Int.ceil (lo / pickStep lo hi n) : ℚ) + (k : ℚ) := by
          have h5 := Int.le_ceil (lo / pickStep lo hi n)
          have hk0 : (0 : ℚ) ≤ (k : ℚ) := by positivity
          linarith
        calc lo = lo / pickStep lo hi n * pickStep lo hi n := by field_simp
        _ ≤ _ := mul_le_mul_of_nonneg_right hle1 (le_of_lt hspos)
      · have hle2 : (Int.ceil (lo / pickStep lo hi n) : ℚ) + (k : ℚ)
            ≤ hi / pickStep lo hi n := by
          have h7 : ((Int.ceil (lo / pickStep lo hi n) + (k : ℤ) : ℤ) : ℚ)
              ≤ ((Int.floor (hi / pickStep lo hi n) : ℤ) : ℚ) := by exact_mod_cast hkz
          have h8 := Int.floor_le (hi / pickStep lo hi n)
          push_cast at h7
          linarith
        calc ((Int.ceil (lo / pickStep lo hi n) : ℚ) + (k : ℚ)) * pickStep lo hi n
            ≤ hi / pickStep lo hi n * pickStep lo hi n :=
              mul_le_mul_of_nonneg_right hle2 (le_of_lt hspos)
        _ = hi := by field_simp
    · rw [hkp]
      refine List.Pairwise.map _ ?_ (List.pairwise_lt_range _)
      intro a b hab
      have hq : (a : ℚ) < (b : ℚ) := by exact_mod_cast hab
      have h9 : (Int.ceil (lo / pickStep lo hi n) : ℚ) + (a : ℚ)
          < (Int.ceil (lo / pickStep lo hi n) : ℚ) + (b : ℚ) := by linarith
      exact mul_lt_mul_of_pos_right h9 hspos
    · intro i h1
      have h2 : i < (keyPoints lo hi n).length := Nat.lt_of_succ_lt h1
      have hg : ∀ (j : ℕ) (hj : j < (keyPoints lo hi n).length),
          (keyPoints lo hi n).get ⟨j, hj⟩
            = ((Int.ceil (lo / pickStep lo hi n) : ℚ) + (j : ℚ)) * pickStep lo hi n := by
        intro j hj
        rw [List.get_eq_getElem, List.getElem_of_eq hkp]
        simp
      rw [hg (i + 1) h1, hg i h2]
      push_cast
      ring

/-- C3 witness: for the axis 0..10 with `max_count = 5` the amended
properties hold concretely. -/
theorem keyPoints_amended_spec_witness :
    (keyPoints 0 10 5).length ≤ 5 ∧
    (∀ x ∈ keyPoints 0 10 5, 0 ≤ x ∧ x ≤ 10) ∧
    List.Sorted (fun a b => a < b) (keyPoints 0 10 5) ∧
    isNice (pickStep 0 10 5) ∧
    (∀ (i : ℕ) (h1 : i + 1 < (keyPoints 0 10 5).length),
      (keyPoints 0 10 5).get ⟨i + 1, h1⟩
        - (keyPoints 0 10 5).get ⟨i, Nat.lt_of_succ_lt h1⟩ = pickStep 0 10 5) :=
  (keyPoints_amended_spec 0 10 5 (by norm_num)).2 (by norm_num)

/-- C3 counterexample: on the non-degenerate domain 1..3 with
`max_count = 2`, `key_points` returns the single point 2 — fewer than the
two points the original claim guarantees for every non-degenerate domain. -/
theorem keyPoints_min_two_points_fails :
    (1 : ℚ) ≠ 3 ∧ (keyPoints (1 : ℚ) 3 2).length < 2 := by
  have hne : (1 : ℚ) ≠ 3 := by norm_num
  have hql : qlog10 (((3 : ℚ) - 1) / ((2 : ℕ) : ℚ)) = 0 := by
    rw [show ((3 : ℚ) - 1) / ((2 : ℕ) : ℚ) = 1 from by norm_num]
    norm_num [qlog10, natLog10, nlog]
  have hc1 : countMult (1 : ℚ) 3 1 = 3 := by
    unfold countMult
    rw [show ((3 : ℚ) / 1) = 3 from by norm_num,
      show ((1 : ℚ) / 1) = 1 from by norm_num,
      show Int.floor ((3 : ℚ)) = 3 from by norm_num,
      show Int.ceil ((1 : ℚ)) = 1 from by norm_num]
    rfl
  have hc2 : countMult (1 : ℚ) 3 2 = 1 := by
    unfold countMult
    rw [show Int.floor ((3 : ℚ) / 2) = 1 from by norm_num,
      show Int.ceil ((1 : ℚ) / 2) = 1 from by rw [Int.ceil_eq_iff]; norm_num]
    rfl
  have hps : pickStep (1 : ℚ) 3 2 = 2 := by
    show ((niceSeq (pow10 (qlog10 (((3 : ℚ) - 1) / ((2 : ℕ) : ℚ)))) (2 + 5)).find?
      (fun s => decide (countMult (1 : ℚ) 3 s ≤ 2))).getD 1 = 2
    rw [hql, show pow10 0 = 1 from by norm_num [pow10]]
    rw [show niceSeq (1 : ℚ) (2 + 5)
        = (1 : ℚ) :: 2 * 1 :: 5 * 1 :: niceSeq (10 * 1) 6 from rfl]
    rw [List.find?_cons_of_neg _ (by simp [hc1])]
    rw [show (2 : ℚ) * 1 = 2 from by norm_num]
    rw [List.find?_cons_of_pos _ (by simp [hc2])]
    rfl
  have hlen : (keyPoints (1 : ℚ) 3 2).length = 1 := by
    unfold keyPoints
    rw [if_neg hne]
    show ((List.range (countMult (1 : ℚ) 3 (pickStep (1 : ℚ) 3 2))).map fun k : ℕ =>
      ((Int.ceil ((1 : ℚ) / pickStep (1 : ℚ) 3 2) : ℚ) + (k : ℚ))
        * pickStep (1 : ℚ) 3 2).length = 1
    rw [hps, hc2]
    rfl
  exact ⟨hne, by rw [hlen]; norm_num⟩

end Plotters
